import Mathlib

/-!
# Speaking clock detection — shallow embedding

Embedding of the speaking-clock detection pipeline
(`inaudible/speaking_clock_detection.py`, `scripts/speaking_clock_detection.py`).

Floating-point samples, spectral magnitudes and thresholds are modelled as
rationals (`ℚ`); decimal literals in the source become exact rationals.
The per-frame spectral transform (hamming window, `np.abs(fft.fft ...)`,
lower-half slicing) produces irrational magnitudes; it is abstracted as a
function parameter `tf : List ℚ → List ℚ` applied frame-wise, so that every
property downstream of the spectrogram is proved for all transforms.
-/

set_option linter.unusedVariables false

/-- Pre-emphasis filter `lfilter([1., -p], 1, input)`:
`y[n] = x[n] - p * x[n-1]` with `x[-1] = 0`. -/
def preemp (p : ℚ) (x : List ℚ) : List ℚ :=
  List.zipWith (fun cur prev => cur - p * prev) x (0 :: x)

/-- `segment_axis(a, length, overlap, end='cut')` on a one-dimensional array:
chops `a` into overlapping frames of `length` elements stepping by
`length - overlap`, discarding trailing elements that do not fill a frame.
The Python code raises `ValueError` for invalid `length`/`overlap`, and raises
(`AssertionError` or `ValueError`, depending on whether the input is empty)
whenever fewer elements than one frame are available; both raise paths on a
short input are modelled by the single `Not enough data points` error. -/
def segment_axis (a : List ℚ) (flen overlap : ℤ) : Except String (List (List ℚ)) :=
  if flen ≤ overlap then .error "frames cannot overlap by more than 100%"
  else if overlap < 0 ∨ flen ≤ 0 then
    .error "overlap must be nonnegative and length must be positive"
  else
    let l := a.length
    let len := flen.toNat
    let step := (flen - overlap).toNat
    if l < len then .error "Not enough data points to segment array in cut mode; try pad or wrap"
    else
      let lcut := if (l - len) % step ≠ 0 then len + ((l - len) / step) * step else l
      let acut := a.take lcut
      .ok ((List.range (1 + (lcut - len) / step)).map (fun i => (acut.drop (i * step)).take len))

/-- `my_specgram(data, winlen, steplen, nfft)`: pre-emphasis, framing with
overlap `winlen - steplen`, then the per-frame windowed magnitude spectrum.
The frame-wise transform `frame * hamming(winlen, sym=0)`,
`np.abs(fft.fft(..., nfft))` restricted to the lower half of the bins is
abstracted as `tf`; `nfft` is kept for signature fidelity and absorbed by
`tf`. -/
def my_specgram (tf : List ℚ → List ℚ) (data : List ℚ) (winlen steplen nfft : ℕ) :
    Except String (List (List ℚ)) :=
  (segment_axis (preemp 0.97 data) (winlen : ℤ) ((winlen : ℤ) - (steplen : ℤ))).map
    (fun framed => framed.map tf)

/-- Python `int()` truncation toward zero on a rational. -/
def int_trunc (q : ℚ) : ℤ := if 0 ≤ q then ⌊q⌋ else ⌈q⌉

/-- `energy_idx(winlen)`: the three spectral bin indices around 1000 Hz for a
signal sampled at 4 kHz. -/
def energy_idx (winlen : ℕ) : List ℤ :=
  let i1000 : ℚ := (1000 * winlen) / 4000
  [int_trunc (i1000 - 1), int_trunc i1000, int_trunc (i1000 + 1)]

/-- `np.sum(spec[:, energy_idx(winlen)], axis=1)` for one frame.  Column
lookups use `getD _ 0`; an out-of-range column (impossible for the 64-bin
frames of the real pipeline) would raise in numpy. -/
def frame_energy_1000 (winlen : ℕ) (fr : List ℚ) : ℚ :=
  ((energy_idx winlen).map (fun i => fr.getD i.toNat 0)).sum

/-- Total frame energy after `energy_all[energy_all == 0] = 1`. -/
def frame_energy_all_mod (fr : List ℚ) : ℚ := if fr.sum = 0 then 1 else fr.sum

/-- Frame energy ratio after the zero-energy guard
(`energy_1000hz[energy_all == 0] = 0`; `energy_all[energy_all == 0] = 1`). -/
def frame_energy_ratio (winlen : ℕ) (fr : List ℚ) : ℚ :=
  (if fr.sum = 0 then 0 else frame_energy_1000 winlen fr) / frame_energy_all_mod fr

/-- Positions where `np.diff(booltab)` is nonzero, shifted right by one:
the indices at which the boolean sequence changes value. -/
def changeIdx (booltab : List Bool) : List ℕ :=
  ((List.range (booltab.length - 1)).filter
      (fun i => decide (booltab.getD (i + 1) false ≠ booltab.getD i false))).map (fun i => i + 1)

/-- The full boundary index list of `contiguous_regions`: change points,
with `0` prepended when the sequence starts `True` and the length appended
when it ends `True`.  `booltab[0]`/`booltab[-1]` are modelled by
`headI`/`getLastD false` (numpy raises on an empty array; the pipeline never
passes one). -/
def boundaryIdx (booltab : List Bool) : List ℕ :=
  (if booltab.headI then [0] else []) ++ changeIdx booltab ++
    (if booltab.getLastD false then [booltab.length] else [])

/-- `idx.shape = (-1, 2)` followed by `(idx[:, 0], idx[:, 1] - idx[:, 0])`:
consecutive boundary indices paired into (start, duration). -/
def pairUp : List ℕ → List (ℕ × ℕ)
  | a :: b :: rest => (a, b - a) :: pairUp rest
  | _ => []

/-- `contiguous_regions(booltab)`: maximal `True` runs as
(start index, duration in frames) pairs. -/
def contiguous_regions (booltab : List Bool) : List (ℕ × ℕ) :=
  pairUp (boundaryIdx booltab)

/-- The frame-level candidate condition `energy_ratio > 0.5` over a whole
spectrogram. -/
def bip_booltab (winlen : ℕ) (spec : List (List ℚ)) : List Bool :=
  spec.map (fun fr => decide ((0.5 : ℚ) < frame_energy_ratio winlen fr))

/-- Bip candidate regions of a spectrogram. -/
def bip_candidates (winlen : ℕ) (spec : List (List ℚ)) : List (ℕ × ℕ) :=
  contiguous_regions (bip_booltab winlen spec)

/-- `dur_sec = (dur - 1) * step_sec + win_sec` for a run of `d` frames. -/
def dur_sec (step_sec win_sec : ℚ) (d : ℕ) : ℚ := ((d : ℚ) - 1) * step_sec + win_sec

/-- The duration filter `np.logical_and(dur_sec > 0.08, dur_sec < 0.16)`. -/
def duration_valid (step_sec win_sec : ℚ) (d : ℕ) : Bool :=
  decide (0.08 < dur_sec step_sec win_sec d ∧ dur_sec step_sec win_sec d < 0.16)

/-- Candidates surviving the duration filter. -/
def valid_candidates (winlen : ℕ) (step_sec win_sec : ℚ) (spec : List (List ℚ)) :
    List (ℕ × ℕ) :=
  (bip_candidates winlen spec).filter (fun p => duration_valid step_sec win_sec p.2)

/-- The (modified) per-frame total energies of a spectrogram. -/
def energy_all_mod (spec : List (List ℚ)) : List ℚ := spec.map frame_energy_all_mod

/-- `np.mean` of a slice (numpy warns and yields NaN on an empty slice; the
pipeline only takes means of nonempty slices). -/
def listMean (l : List ℚ) : ℚ := l.sum / l.length

/-- `np.mean(energy_all[i:(i+d)])` for a candidate `(i, d)`. -/
def candidate_energy (spec : List (List ℚ)) (p : ℕ × ℕ) : ℚ :=
  listMean (((energy_all_mod spec).drop p.1).take p.2)

/-- `np.max` of a list (only ever applied to nonempty lists in the source). -/
def listMax : List ℚ → ℚ
  | [] => 0
  | a :: r => r.foldl max a

/-- The candidate-filtering part of `wavdata2bip` applied to a spectrogram:
duration filter, relative-energy filter, then start-frame-index to seconds. -/
def wavdata2bip_spec (winlen : ℕ) (step_sec win_sec : ℚ) (spec : List (List ℚ)) : List ℚ :=
  let valid := valid_candidates winlen step_sec win_sec spec
  if valid = [] then []
  else
    let mx := listMax (valid.map (candidate_energy spec))
    (valid.filter (fun p => decide (0.2 * mx < candidate_energy spec p))).map
      (fun p => (p.1 : ℚ) * step_sec)

/-- `wavdata2bip(wavdata)`: 32 ms window / 8 ms step spectrogram at 4 kHz,
then candidate extraction.  `winlen = int(0.032 * 4000) = 128`,
`step = int(0.008 * 4000) = 32`, `nfft = winlen`. -/
def wavdata2bip (tf : List ℚ → List ℚ) (wavdata : List ℚ) : Except String (List ℚ) :=
  (my_specgram tf wavdata 128 32 128).map (wavdata2bip_spec 128 0.008 0.032)

/-- `np.round`: round to nearest, ties to even. -/
def roundHalfEven (q : ℚ) : ℤ :=
  if Int.fract q < 1 / 2 then ⌊q⌋
  else if 1 / 2 < Int.fract q then ⌊q⌋ + 1
  else if ⌊q⌋ % 2 = 0 then ⌊q⌋ else ⌊q⌋ + 1

/-- `is_bip_pattern(bip_list, dur)`: decide whether a bip list looks like a
speaking-clock pattern.  `np.diff` is `zipWith (· - ·) tail self`; the
`np.int32` cast of the rounded differences is modelled without wraparound
(differences of realistic timestamps are far below `2^31`). -/
def is_bip_pattern (bip_list : List ℚ) (dur : ℚ) : Bool :=
  if bip_list.length = 0 then false
  else
    let dbip := List.zipWith (fun a b => roundHalfEven (a - b)) bip_list.tail bip_list
    let nb1 := (dbip.filter (fun d => decide (d = 1))).length
    let nb10 := (dbip.filter (fun d => decide (d = 10))).length
    let nb17 := (dbip.filter (fun d => decide (d = 17))).length
    let nbother := dbip.length - nb1 - nb10 - nb17
    let est_bips : ℚ := dur / 60 * 8
    if dur < 60 then
      decide (nb1 + nb10 + nb17 > 4 * nbother) &&
        decide ((dbip.length : ℚ) ≥ est_bips * 0.3) &&
        decide ((dbip.length : ℚ) ≤ est_bips * 1.5)
    else
      decide (nb1 + nb10 + nb17 > 4 * nbother) &&
        decide ((dbip.length : ℚ) > est_bips * 0.8) &&
        decide ((dbip.length : ℚ) < est_bips * 1.2)

/-- One channel of the `speaking_clock_detection` loop body, as a boolean:
does the channel's bip list match the pattern (and decoding/framing succeed)? -/
def channelMatches (tf : List ℚ → List ℚ) (dur : ℚ) (c : List ℚ) : Bool :=
  match wavdata2bip tf c with
  | .ok bips => is_bip_pattern bips dur
  | .error _ => false

/-- The accumulation loop of `speaking_clock_detection`:
`for i in range(nchan): if is_bip_pattern(wavdata2bip(chan i), dur): ret.append(i)`,
with `i` threaded as an explicit counter.  Exceptions from `wavdata2bip`
propagate. -/
def clockChannelsAux (tf : List ℚ → List ℚ) (dur : ℚ) : ℕ → List (List ℚ) →
    Except String (List ℕ)
  | _, [] => .ok []
  | i, c :: rest =>
    match wavdata2bip tf c with
    | .error e => .error e
    | .ok bips =>
      match clockChannelsAux tf dur (i + 1) rest with
      | .error e => .error e
      | .ok l => .ok (if is_bip_pattern bips dur then i :: l else l)

/-- `speaking_clock_detection` after decoding: the decoded clip is the list of
its channels (all of one common length, `wav_data.shape[0]`); per-channel
analysis with the clip duration `shape[0] / 4000`, then the reduction
`[] → -1`, `[i] → i`, more `→ -2`. -/
def speaking_clock_detection (tf : List ℚ → List ℚ) (chans : List (List ℚ)) :
    Except String ℤ :=
  let dur : ℚ := (chans.headI.length : ℚ) / 4000
  match clockChannelsAux tf dur 0 chans with
  | .error e => .error e
  | .ok ret =>
    .ok (if ret.length = 0 then -1 else if ret.length = 1 then (ret.headI : ℤ) else -2)

/-- Modelled from the spec (§4.4): the indices (0-based, in order) of the
channels that the per-channel pipeline classifies as matching the
speaking-clock pattern, with the clip duration `shape[0] / 4000`.  Used to
state the ChannelSelector reduction. -/
def clockMatchedChannels (tf : List ℚ → List ℚ) (chans : List (List ℚ)) : List ℕ :=
  (List.range chans.length).filter
    (fun k => channelMatches tf ((chans.headI.length : ℚ) / 4000) (chans.getD k []))

/-- `phase_inversion_detection` after decoding: `0` (normal) for mono,
`-1` (unsupported) for more than two channels, else the sign test on
`np.sum(wav_data[:, 0] * wav_data[:, 1])`.  (A zero-channel clip cannot come
out of the decoder; there the Python code would raise an IndexError.) -/
def phase_inversion_detection (chans : List (List ℚ)) : ℤ :=
  let nbchan := chans.length
  if nbchan = 1 then 0
  else if nbchan > 2 then -1
  else
    let correlation := (List.zipWith (· * ·) (chans.getD 0 []) (chans.getD 1 [])).sum
    if correlation < 0 then 1 else 0

/-- Modelled from the spec (§4.3): the PatternClassifier acceptance rule in
the spec's own words, with consecutive differences "rounded to the nearest
integer second" taken as Mathlib's `round` and `nbOther` the direct count of
differences other than 1, 10 and 17.  Used to compare against
`is_bip_pattern`. -/
def isBipPatternSpec (bip_list : List ℚ) (dur : ℚ) : Prop :=
  let dbip := List.zipWith (fun a b => round (a - b)) bip_list.tail bip_list
  let nb1 := (dbip.filter (fun d => decide (d = 1))).length
  let nb10 := (dbip.filter (fun d => decide (d = 10))).length
  let nb17 := (dbip.filter (fun d => decide (d = 17))).length
  let nbOther := (dbip.filter (fun d => decide (¬(d = 1 ∨ d = 10 ∨ d = 17)))).length
  let estBips : ℚ := dur / 60 * 8
  let numDiffs := dbip.length
  nb1 + nb10 + nb17 > 4 * nbOther ∧
    (if dur < 60 then 0.3 * estBips ≤ (numDiffs : ℚ) ∧ (numDiffs : ℚ) ≤ 1.5 * estBips
     else 0.8 * estBips < (numDiffs : ℚ) ∧ (numDiffs : ℚ) < 1.2 * estBips)

instance (bl : List ℚ) (dur : ℚ) : Decidable (isBipPatternSpec bl dur) := by
  unfold isBipPatternSpec
  exact inferInstance

/-! ## Basic list lemmas -/

theorem preemp_length (p : ℚ) (x : List ℚ) : (preemp p x).length = x.length := by
  simp [preemp, List.length_zipWith]

theorem preemp_replicate_zero (p : ℚ) (n : ℕ) :
    preemp p (List.replicate n 0) = List.replicate n 0 := by
  unfold preemp
  induction n with
  | zero => rfl
  | succ m ih =>
    have h1 : List.replicate (m + 1) (0 : ℚ) = 0 :: List.replicate m 0 := rfl
    rw [h1]
    simpa [List.zipWith] using ih

theorem exists_of_mem_zipWith {α β γ : Type} {f : α → β → γ} :
    ∀ {l₁ : List α} {l₂ : List β} {x : γ}, x ∈ List.zipWith f l₁ l₂ →
      ∃ a ∈ l₁, ∃ b ∈ l₂, x = f a b := by
  intro l₁
  induction l₁ with
  | nil => intro l₂ x hx; simp at hx
  | cons a t ih =>
    intro l₂ x hx
    cases l₂ with
    | nil => simp at hx
    | cons b t₂ =>
      simp only [List.zipWith, List.mem_cons] at hx
      rcases hx with h | h
      · exact ⟨a, by simp, b, by simp, h⟩
      · rcases ih h with ⟨a', ha', b', hb', hx⟩
        exact ⟨a', by simp [ha'], b', by simp [hb'], hx⟩

theorem le_foldl_max_init (l : List ℚ) (a : ℚ) : a ≤ l.foldl max a := by
  induction l generalizing a with
  | nil => simp
  | cons b t ih => exact le_trans (le_max_left a b) (ih (max a b))

theorem mem_le_foldl_max {l : List ℚ} {x : ℚ} (hx : x ∈ l) (a : ℚ) : x ≤ l.foldl max a := by
  induction l generalizing a with
  | nil => simp at hx
  | cons b t ih =>
    simp only [List.foldl]
    rcases List.mem_cons.mp hx with rfl | hx
    · exact le_trans (le_max_right a x) (le_foldl_max_init t (max a x))
    · exact ih hx (max a b)

theorem foldl_max_mem (l : List ℚ) (a : ℚ) : l.foldl max a = a ∨ l.foldl max a ∈ l := by
  induction l generalizing a with
  | nil => simp
  | cons b t ih =>
    simp only [List.foldl]
    rcases ih (max a b) with h | h
    · rcases max_choice a b with hm | hm
      · exact Or.inl (by rw [h, hm])
      · exact Or.inr (List.mem_cons.mpr (Or.inl (by rw [h, hm])))
    · exact Or.inr (List.mem_cons.mpr (Or.inr h))

theorem listMax_mem {l : List ℚ} (h : l ≠ []) : listMax l ∈ l := by
  cases l with
  | nil => simp at h
  | cons a t =>
    rcases foldl_max_mem t a with hm | hm
    · simp [listMax, hm]
    · simp [listMax, hm]

theorem le_listMax {l : List ℚ} {x : ℚ} (hx : x ∈ l) : x ≤ listMax l := by
  cases l with
  | nil => simp at hx
  | cons a t =>
    rcases List.mem_cons.mp hx with rfl | hx
    · exact le_foldl_max_init t x
    · exact mem_le_foldl_max hx a

/-! ## `segment_axis` and `my_specgram` -/

theorem segment_axis_ok (a : List ℚ) (W S : ℕ) (hS : 0 < S) (hSW : S ≤ W)
    (hL : W ≤ a.length) :
    ∃ fr, segment_axis a (W : ℤ) ((W : ℤ) - (S : ℤ)) = .ok fr ∧
      fr.length = 1 + (a.length - W) / S ∧
      ∀ f ∈ fr, ∃ k, f = (a.drop k).take W ∧ k + W ≤ a.length := by
  have hc1 : ¬ ((W : ℤ) ≤ (W : ℤ) - (S : ℤ)) := by omega
  have hc2 : ¬ (((W : ℤ) - (S : ℤ) < 0) ∨ (W : ℤ) ≤ 0) := by omega
  have htn1 : ((W : ℤ)).toNat = W := by omega
  have htn2 : ((W : ℤ) - ((W : ℤ) - (S : ℤ))).toNat = S := by omega
  have hc3 : ¬ (a.length < W) := by omega
  rw [segment_axis]
  simp only [hc1, if_false, hc2, if_false, htn1, htn2, hc3, if_false]
  set L := a.length with hLdef
  set lcut := if (L - W) % S ≠ 0 then W + ((L - W) / S) * S else L with hlcut
  have hlcut_ge : W ≤ lcut := by
    rw [hlcut]; split
    · omega
    · omega
  have hlcut_le : lcut ≤ L := by
    have hd : ((L - W) / S) * S ≤ L - W := Nat.div_mul_le_self _ _
    rw [hlcut]; split
    · omega
    · omega
  have hdiv : (lcut - W) / S = (L - W) / S := by
    rw [hlcut]; split
    · rw [Nat.add_sub_cancel_left, Nat.mul_div_cancel _ hS]
    · rfl
  refine ⟨_, rfl, by simp [hdiv], ?_⟩
  intro f hf
  simp only [List.mem_map, List.mem_range] at hf
  obtain ⟨i, hi, rfl⟩ := hf
  have hiS : i * S + W ≤ lcut := by
    have h1 : i ≤ (lcut - W) / S := by omega
    have h2 : i * S ≤ ((lcut - W) / S) * S := Nat.mul_le_mul_right _ h1
    have h3 : ((lcut - W) / S) * S ≤ lcut - W := Nat.div_mul_le_self _ _
    omega
  refine ⟨i * S, ?_, by omega⟩
  rw [List.drop_take, List.take_take]
  congr 1
  omega

theorem segment_axis_short (a : List ℚ) (W S : ℕ) (hS : 0 < S) (hSW : S ≤ W)
    (hL : a.length < W) :
    segment_axis a (W : ℤ) ((W : ℤ) - (S : ℤ)) =
      .error "Not enough data points to segment array in cut mode; try pad or wrap" := by
  have hc1 : ¬ ((W : ℤ) ≤ (W : ℤ) - (S : ℤ)) := by omega
  have hc2 : ¬ (((W : ℤ) - (S : ℤ) < 0) ∨ (W : ℤ) ≤ 0) := by omega
  have htn1 : ((W : ℤ)).toNat = W := by omega
  rw [segment_axis]
  simp only [hc1, if_false, hc2, if_false, htn1]
  rw [if_pos hL]

theorem my_specgram_ok (tf : List ℚ → List ℚ) (data : List ℚ) (W S n : ℕ)
    (hS : 0 < S) (hSW : S ≤ W) (hL : W ≤ data.length) :
    ∃ spec, my_specgram tf data W S n = .ok spec ∧
      spec.length = 1 + (data.length - W) / S ∧
      ∀ fr ∈ spec, ∃ k, fr = tf (((preemp 0.97 data).drop k).take W) ∧ k + W ≤ data.length := by
  obtain ⟨frames, hfr, hlen, hmem⟩ :=
    segment_axis_ok (preemp 0.97 data) W S hS hSW (by rw [preemp_length]; exact hL)
  refine ⟨frames.map tf, ?_, by rw [List.length_map, hlen, preemp_length], ?_⟩
  · rw [my_specgram, hfr]; rfl
  · intro fr hm
    simp only [List.mem_map] at hm
    obtain ⟨g, hg, rfl⟩ := hm
    obtain ⟨k, hgk, hk⟩ := hmem g hg
    exact ⟨k, by rw [hgk], by rw [preemp_length] at hk; exact hk⟩

/-- Claim C7: for an input channel of length `L ≥ W`, the spectrogram engine
(`my_specgram` with window `W`, step `S`, cut policy) produces exactly
`1 + (L - W) / S` frames, discarding trailing samples that do not fill a
complete window. -/
theorem my_specgram_frame_count (tf : List ℚ → List ℚ) (data : List ℚ) (W S n : ℕ)
    (hS : 0 < S) (hSW : S ≤ W) (hL : W ≤ data.length) :
    (my_specgram tf data W S n).map List.length = .ok (1 + (data.length - W) / S) := by
  obtain ⟨spec, hok, hlen, _⟩ := my_specgram_ok tf data W S n hS hSW hL
  rw [hok]
  simp only [Except.map, hlen]

theorem my_specgram_frame_count_witness :
    (0 < 32 ∧ 32 ≤ 128 ∧ 128 ≤ (List.replicate 160 (0 : ℚ)).length) ∧
      (my_specgram (fun _ => []) (List.replicate 160 (0 : ℚ)) 128 32 128).map List.length =
        .ok 2 := by
  refine ⟨⟨by norm_num, by norm_num, by rw [List.length_replicate]; norm_num⟩, ?_⟩
  have h := my_specgram_frame_count (fun _ => []) (List.replicate 160 (0 : ℚ)) 128 32 128
    (by norm_num) (by norm_num) (by rw [List.length_replicate]; norm_num)
  rw [List.length_replicate] at h
  norm_num at h
  exact h

/-- Claim C8: for an input channel with fewer samples than one window length
`W` (including length 0), the spectrogram engine fails with an error rather
than silently returning an empty spectrogram. -/
theorem my_specgram_short_fails (tf : List ℚ → List ℚ) (data : List ℚ) (W S n : ℕ)
    (hS : 0 < S) (hSW : S ≤ W) (hL : data.length < W) :
    my_specgram tf data W S n =
      .error "Not enough data points to segment array in cut mode; try pad or wrap" := by
  rw [my_specgram, segment_axis_short _ W S hS hSW (by rw [preemp_length]; exact hL)]
  rfl

theorem my_specgram_short_fails_witness :
    (0 < 32 ∧ 32 ≤ 128 ∧ ([] : List ℚ).length < 128) ∧
      my_specgram (fun _ => []) ([] : List ℚ) 128 32 128 =
        .error "Not enough data points to segment array in cut mode; try pad or wrap" :=
  ⟨⟨by norm_num, by norm_num, by simp⟩,
    my_specgram_short_fails (fun _ => []) [] 128 32 128 (by norm_num) (by norm_num) (by simp)⟩

/-! ## `contiguous_regions` theory -/

theorem changeIdx_pairwise (bt : List Bool) : (changeIdx bt).Pairwise (· < ·) := by
  unfold changeIdx
  exact List.pairwise_map.mpr (((List.pairwise_lt_range _).filter _).imp (by omega))

theorem mem_changeIdx {bt : List Bool} {j : ℕ} (hj : j ∈ changeIdx bt) :
    1 ≤ j ∧ j < bt.length := by
  unfold changeIdx at hj
  simp only [List.mem_map, List.mem_filter, List.mem_range] at hj
  obtain ⟨i, ⟨hi, _⟩, rfl⟩ := hj
  omega

theorem headI_true_length_pos {bt : List Bool} (h : bt.headI = true) : 0 < bt.length := by
  cases bt with
  | nil => simp at h
  | cons a t => simp

theorem mem_boundaryIdx_le {bt : List Bool} {j : ℕ} (hj : j ∈ boundaryIdx bt) :
    j ≤ bt.length := by
  unfold boundaryIdx at hj
  simp only [List.mem_append] at hj
  rcases hj with (h | h) | h
  · rcases h1 : bt.headI with _ | _ <;> rw [h1] at h <;> simp at h
    omega
  · exact le_of_lt (mem_changeIdx h).2
  · rcases h2 : bt.getLastD false with _ | _ <;> rw [h2] at h <;> simp at h
    omega

theorem boundaryIdx_pairwise (bt : List Bool) : (boundaryIdx bt).Pairwise (· < ·) := by
  have hc := changeIdx_pairwise bt
  have hlow : ∀ j ∈ changeIdx bt, 0 < j := fun j hj => (mem_changeIdx hj).1
  have hhigh : ∀ j ∈ changeIdx bt, j < bt.length := fun j hj => (mem_changeIdx hj).2
  have hmid : (changeIdx bt ++ if bt.getLastD false then [bt.length] else []).Pairwise (· < ·) := by
    by_cases h2 : bt.getLastD false = true
    · rw [if_pos h2, List.pairwise_append]
      refine ⟨hc, List.pairwise_singleton _ _, fun a ha b hb => ?_⟩
      rw [List.mem_singleton] at hb
      subst hb
      exact hhigh a ha
    · rw [if_neg h2, List.append_nil]
      exact hc
  have hmem : ∀ b ∈ changeIdx bt ++ (if bt.getLastD false then [bt.length] else []),
      bt.headI = true → 0 < b := by
    intro b hb h1
    rcases List.mem_append.mp hb with h | h
    · exact hlow b h
    · by_cases h2 : bt.getLastD false = true
      · rw [if_pos h2, List.mem_singleton] at h
        subst h
        exact headI_true_length_pos h1
      · rw [if_neg h2] at h
        simp at h
  unfold boundaryIdx
  by_cases h1 : bt.headI = true
  · rw [if_pos h1, List.singleton_append, List.cons_append, List.pairwise_cons]
    exact ⟨fun b hb => hmem b hb h1, hmid⟩
  · rw [if_neg h1, List.nil_append]
    exact hmid

theorem pairUp_map_add_one : ∀ l : List ℕ,
    pairUp (l.map (· + 1)) = (pairUp l).map (fun p => (p.1 + 1, p.2))
  | [] => rfl
  | [a] => rfl
  | a :: b :: rest => by
    have h : b + 1 - (a + 1) = b - a := by omega
    simp only [List.map_cons, pairUp, pairUp_map_add_one rest, h]

theorem mem_pairUp_of_pairwise : ∀ {l : List ℕ}, l.Pairwise (· < ·) → ∀ {p : ℕ × ℕ},
    p ∈ pairUp l → 0 < p.2 ∧ p.1 ∈ l ∧ p.1 + p.2 ∈ l
  | [], _, p, hp => by simp [pairUp] at hp
  | [a], _, p, hp => by simp [pairUp] at hp
  | a :: b :: rest, hpw, p, hp => by
    rcases hpw with _ | ⟨hab, hpw'⟩
    rcases hpw' with _ | ⟨hbr, hrest⟩
    simp only [pairUp, List.mem_cons] at hp
    rcases hp with rfl | hp
    · have h1 : a < b := hab b (by simp)
      refine ⟨by omega, by simp, ?_⟩
      have h2 : a + (b - a) = b := by omega
      simp only [h2]
      simp
    · have h := mem_pairUp_of_pairwise hrest hp
      exact ⟨h.1, by simp [h.2.1], by simp [h.2.2]⟩

theorem pairUp_pairwise_fst : ∀ {l : List ℕ}, l.Pairwise (· < ·) →
    (pairUp l).Pairwise (fun p q => p.1 < q.1)
  | [], _ => by simp [pairUp]
  | [a], _ => by simp [pairUp]
  | a :: b :: rest, hpw => by
    rcases hpw with _ | ⟨hab, hpw'⟩
    rcases hpw' with _ | ⟨hbr, hrest⟩
    rw [pairUp]
    refine List.Pairwise.cons ?_ (pairUp_pairwise_fst hrest)
    intro q hq
    have h := mem_pairUp_of_pairwise hrest hq
    exact hab q.1 (List.mem_cons_of_mem _ h.2.1)

theorem contiguous_regions_pairwise (bt : List Bool) :
    (contiguous_regions bt).Pairwise (fun p q => p.1 < q.1) :=
  pairUp_pairwise_fst (boundaryIdx_pairwise bt)

theorem mem_contiguous_regions {bt : List Bool} {p : ℕ × ℕ}
    (hp : p ∈ contiguous_regions bt) : 0 < p.2 ∧ p.1 + p.2 ≤ bt.length := by
  have h := mem_pairUp_of_pairwise (boundaryIdx_pairwise bt) hp
  exact ⟨h.1, mem_boundaryIdx_le h.2.2⟩

theorem getD_eq_false {bt : List Bool} (h : ∀ b ∈ bt, b = false) (j : ℕ) :
    bt.getD j false = false := by
  rcases lt_or_ge j bt.length with hj | hj
  · rw [List.getD_eq_getElem?_getD, List.getElem?_eq_getElem hj]
    exact h _ (List.getElem_mem hj)
  · rw [List.getD_eq_getElem?_getD, List.getElem?_eq_none hj]
    rfl

theorem getLastD_eq_false : ∀ {bt : List Bool}, (∀ b ∈ bt, b = false) → bt.getLastD false = false
  | [], _ => rfl
  | a :: t, h => by
    rw [List.getLastD_cons]
    have ha : a = false := h a (by simp)
    subst ha
    exact getLastD_eq_false fun b hb => h b (List.mem_cons_of_mem _ hb)

theorem contiguous_regions_all_false {bt : List Bool} (h : ∀ b ∈ bt, b = false) :
    contiguous_regions bt = [] := by
  have hchange : changeIdx bt = [] := by
    unfold changeIdx
    rw [List.filter_eq_nil_iff.mpr ?_]
    · rfl
    · intro i _
      simp only [decide_eq_true_eq, ne_eq, not_not]
      rw [getD_eq_false h (i + 1), getD_eq_false h i]
  have hhead : bt.headI = false := by
    cases bt with
    | nil => rfl
    | cons a t => exact h a (by simp)
  rw [contiguous_regions, boundaryIdx, hchange, hhead, getLastD_eq_false h]
  rfl

theorem changeIdx_cons (b : Bool) (r : List Bool) :
    changeIdx (b :: r) =
      (if r.headI ≠ b ∧ r ≠ [] then [1] else []) ++ (changeIdx r).map (· + 1) := by
  cases r with
  | nil => simp [changeIdx]
  | cons a t =>
    have e : ((fun i => decide ((b :: a :: t).getD (i + 1) false ≠ (b :: a :: t).getD i false)) ∘
        (fun i => i + 1)) =
        (fun i => decide ((a :: t).getD (i + 1) false ≠ (a :: t).getD i false)) := by
      funext i
      simp only [Function.comp_apply, List.getD_cons_succ]
    unfold changeIdx
    simp only [List.length_cons, Nat.add_sub_cancel]
    rw [List.range_succ_eq_map, List.filter_cons, List.filter_map, e]
    rw [apply_ite (List.map (fun i => i + 1))]
    by_cases hab : a = b
    · subst hab
      rw [if_neg (by simp), if_neg (by simp)]
      simp [List.map_map]
    · rw [if_pos (by simp [List.getD_cons_succ, List.getD_cons_zero, hab]),
        if_pos (by simp [hab])]
      simp [List.map_map]

theorem getLastD_irrel {r : List Bool} (h : r ≠ []) (d₁ d₂ : Bool) :
    r.getLastD d₁ = r.getLastD d₂ := by
  cases r with
  | nil => exact absurd rfl h
  | cons a t => rw [List.getLastD_cons, List.getLastD_cons]

theorem headI_cond_iff (r : List Bool) : (r.headI ≠ false ∧ r ≠ []) ↔ r.headI = true := by
  constructor
  · rintro ⟨h1, _⟩
    cases hr : r.headI
    · exact absurd hr h1
    · rfl
  · intro h
    refine ⟨by simp [h], fun hnil => by rw [hnil] at h; simp at h⟩

theorem map_add_one_if (c : Prop) [Decidable c] (n : ℕ) :
    (if c then [n] else ([] : List ℕ)).map (· + 1) = if c then [n + 1] else [] := by
  split <;> rfl

theorem boundaryIdx_false_cons (r : List Bool) :
    boundaryIdx (false :: r) = (boundaryIdx r).map (· + 1) := by
  unfold boundaryIdx
  rw [changeIdx_cons, List.map_append, List.map_append, map_add_one_if, map_add_one_if]
  rw [if_neg (by simp : ¬((false :: r).headI = true)), List.nil_append]
  rw [List.getLastD_cons false false r, List.length_cons]
  rw [if_congr (headI_cond_iff r) rfl rfl]

theorem boundaryIdx_true_cons_false (r : List Bool) (hr : r.headI = false) :
    boundaryIdx (true :: r) = 0 :: 1 :: (boundaryIdx r).map (· + 1) := by
  cases r with
  | nil => rfl
  | cons a t =>
    have ha : a = false := by simpa using hr
    subst ha
    unfold boundaryIdx
    rw [changeIdx_cons, List.map_append, List.map_append, map_add_one_if, map_add_one_if]
    rw [if_pos (by simp : (true :: false :: t).headI = true)]
    rw [if_neg (by simp : ¬((false :: t).headI = true))]
    rw [if_pos (by simp : (false :: t).headI ≠ true ∧ (false :: t) ≠ [])]
    rw [List.getLastD_cons false true (false :: t),
        getLastD_irrel (show (false :: t) ≠ [] by simp) true false]
    simp [List.length_cons]

theorem boundaryIdx_true_cons_true (r : List Bool) (hr : r.headI = true) :
    ∃ t, boundaryIdx r = 0 :: t ∧ boundaryIdx (true :: r) = 0 :: t.map (· + 1) := by
  have hne : r ≠ [] := fun h => by rw [h] at hr; simp at hr
  refine ⟨changeIdx r ++ (if r.getLastD false = true then [r.length] else []), ?_, ?_⟩
  · unfold boundaryIdx
    rw [if_pos hr, List.singleton_append, List.cons_append]
  · unfold boundaryIdx
    rw [changeIdx_cons,
        if_neg (show ¬(r.headI ≠ true ∧ r ≠ []) by simp [hr]), List.nil_append,
        if_pos (show (true :: r).headI = true by simp)]
    rw [List.getLastD_cons false true r, getLastD_irrel hne true false]
    rw [List.map_append, map_add_one_if, List.length_cons]
    rw [List.singleton_append, List.cons_append]

theorem contiguous_regions_true {bt : List Bool} :
    ∀ {p : ℕ × ℕ}, p ∈ contiguous_regions bt →
      ∀ j, p.1 ≤ j → j < p.1 + p.2 → bt.getD j false = true := by
  induction bt with
  | nil =>
    intro p hp
    simp [contiguous_regions, boundaryIdx, changeIdx, pairUp, List.range_zero] at hp
  | cons b r ih =>
    intro p hp j h1 h2
    cases b with
    | false =>
      rw [contiguous_regions, boundaryIdx_false_cons, pairUp_map_add_one] at hp
      simp only [List.mem_map] at hp
      obtain ⟨⟨q1, q2⟩, hq, rfl⟩ := hp
      dsimp only at h1 h2
      obtain ⟨m, rfl⟩ : ∃ m, j = m + 1 := ⟨j - 1, by omega⟩
      rw [List.getD_cons_succ]
      exact ih hq m (by omega) (by omega)
    | true =>
      by_cases hr : r.headI = true
      · obtain ⟨t, hbr, hbtr⟩ := boundaryIdx_true_cons_true r hr
        rw [contiguous_regions, hbtr] at hp
        cases t with
        | nil => simp [pairUp] at hp
        | cons x t' =>
          rw [List.map_cons, pairUp] at hp
          rcases List.mem_cons.mp hp with rfl | hp
          · dsimp only at h1 h2
            cases j with
            | zero => rw [List.getD_cons_zero]
            | succ m =>
              have hfirst : ((0 : ℕ), x) ∈ contiguous_regions r := by
                rw [contiguous_regions, hbr, pairUp]
                simp
              rw [List.getD_cons_succ]
              exact ih hfirst m (by omega) (by omega)
          · rw [pairUp_map_add_one] at hp
            simp only [List.mem_map] at hp
            obtain ⟨⟨q1, q2⟩, hq, rfl⟩ := hp
            have hq' : (q1, q2) ∈ contiguous_regions r := by
              rw [contiguous_regions, hbr, pairUp]
              exact List.mem_cons_of_mem _ hq
            dsimp only at h1 h2
            obtain ⟨m, rfl⟩ : ∃ m, j = m + 1 := ⟨j - 1, by omega⟩
            rw [List.getD_cons_succ]
            exact ih hq' m (by omega) (by omega)
      · have hr' : r.headI = false := by
          cases hh : r.headI
          · rfl
          · exact absurd hh hr
        rw [contiguous_regions, boundaryIdx_true_cons_false r hr', pairUp] at hp
        rcases List.mem_cons.mp hp with rfl | hp
        · dsimp only at h1 h2
          have hj : j = 0 := by omega
          subst hj
          rw [List.getD_cons_zero]
        · rw [pairUp_map_add_one] at hp
          simp only [List.mem_map] at hp
          obtain ⟨⟨q1, q2⟩, hq, rfl⟩ := hp
          dsimp only at h1 h2
          obtain ⟨m, rfl⟩ : ∃ m, j = m + 1 := ⟨j - 1, by omega⟩
          rw [List.getD_cons_succ]
          exact ih hq m (by omega) (by omega)

/-! ## Duration filter (claim C3) -/

theorem dur_bounds (d : ℕ) :
    ((0.08 : ℚ) < dur_sec 0.008 0.032 d ∧ dur_sec 0.008 0.032 d < 0.16) ↔
      (8 ≤ d ∧ d ≤ 16) := by
  rw [dur_sec]
  constructor
  · rintro ⟨h1, h2⟩
    constructor
    · have h7 : (7 : ℚ) < (d : ℚ) := by nlinarith
      have : (7 : ℕ) < d := by exact_mod_cast h7
      omega
    · have h17 : (d : ℚ) < 17 := by nlinarith
      have : d < (17 : ℕ) := by exact_mod_cast h17
      omega
  · rintro ⟨h1, h2⟩
    have hq1 : (8 : ℚ) ≤ (d : ℚ) := by exact_mod_cast h1
    have hq2 : (d : ℚ) ≤ 16 := by exact_mod_cast h2
    constructor <;> nlinarith

/-- Claim C3: a candidate run of `d` frames is kept by the duration filter
(step 0.008 s, window 0.032 s) exactly when its duration
`(d - 1) * 0.008 + 0.032` lies strictly between 0.08 s and 0.16 s,
equivalently exactly when `8 ≤ d ≤ 16`; the boundary durations 0.08 s
(`d = 7`) and 0.16 s (`d = 17`) are excluded. -/
theorem duration_filter_characterization (d : ℕ) :
    (duration_valid 0.008 0.032 d = true ↔
      ((0.08 : ℚ) < dur_sec 0.008 0.032 d ∧ dur_sec 0.008 0.032 d < 0.16)) ∧
    (duration_valid 0.008 0.032 d = true ↔ (8 ≤ d ∧ d ≤ 16)) ∧
    dur_sec 0.008 0.032 7 = 0.08 ∧ duration_valid 0.008 0.032 7 = false ∧
    dur_sec 0.008 0.032 17 = 0.16 ∧ duration_valid 0.008 0.032 17 = false := by
  refine ⟨by rw [duration_valid, decide_eq_true_eq], ?_, ?_, ?_, ?_, ?_⟩
  · rw [duration_valid, decide_eq_true_eq]
    exact dur_bounds d
  · norm_num [dur_sec]
  · norm_num [duration_valid, dur_sec]
  · norm_num [dur_sec]
  · norm_num [duration_valid, dur_sec]

/-! ## Zero-energy guard (claim C4) -/

theorem bip_booltab_getD_true {winlen : ℕ} {spec : List (List ℚ)} {j : ℕ}
    (h : (bip_booltab winlen spec).getD j false = true) :
    j < spec.length ∧ (0.5 : ℚ) < frame_energy_ratio winlen (spec.getD j []) := by
  rw [bip_booltab, List.getD_eq_getElem?_getD, List.getElem?_map] at h
  rcases lt_or_ge j spec.length with hj | hj
  · rw [List.getElem?_eq_getElem hj] at h
    simp only [Option.map_some', Option.getD_some, decide_eq_true_eq] at h
    refine ⟨hj, ?_⟩
    rwa [List.getD_eq_getElem?_getD, List.getElem?_eq_getElem hj]
  · rw [List.getElem?_eq_none hj] at h
    simp at h

/-- Claim C4: for a spectrogram frame whose total retained-bin energy is zero,
the guard defines `energyRatio = 0`, so the frame never satisfies the
candidate condition and never belongs to a candidate run; moreover the
divisor `frame_energy_all_mod` is nonzero for every frame, so no division by
zero (or NaN) can arise. -/
theorem zero_energy_guard (winlen : ℕ) (spec : List (List ℚ)) (j : ℕ)
    (hz : (spec.getD j []).sum = 0) :
    frame_energy_ratio winlen (spec.getD j []) = 0 ∧
    (∀ fr : List ℚ, frame_energy_all_mod fr ≠ 0) ∧
    (∀ p ∈ bip_candidates winlen spec, ¬(p.1 ≤ j ∧ j < p.1 + p.2)) := by
  have hratio : frame_energy_ratio winlen (spec.getD j []) = 0 := by
    rw [frame_energy_ratio, if_pos hz]
    exact zero_div _
  refine ⟨hratio, ?_, ?_⟩
  · intro fr
    rw [frame_energy_all_mod]
    split
    · norm_num
    · assumption
  · rintro p hp ⟨h1, h2⟩
    have htrue := contiguous_regions_true hp j h1 h2
    have := (bip_booltab_getD_true htrue).2
    rw [hratio] at this
    norm_num at this

theorem zero_energy_guard_witness :
    (([([(0 : ℚ), 0]), [(1 : ℚ), 1]].getD 0 []).sum = 0) ∧
      frame_energy_ratio 128 ([([(0 : ℚ), 0]), [(1 : ℚ), 1]].getD 0 []) = 0 ∧
      (∀ fr : List ℚ, frame_energy_all_mod fr ≠ 0) ∧
      (∀ p ∈ bip_candidates 128 [([(0 : ℚ), 0]), [(1 : ℚ), 1]],
        ¬(p.1 ≤ 0 ∧ 0 < p.1 + p.2)) := by
  have h := zero_energy_guard 128 [([(0 : ℚ), 0]), [(1 : ℚ), 1]] 0 (by norm_num)
  exact ⟨by norm_num, h.1, h.2.1, h.2.2⟩

/-! ## BipSequence timestamps (claim C9) -/

theorem wavdata2bip_spec_mono (winlen : ℕ) (step_sec win_sec : ℚ) (hstep : 0 < step_sec)
    (spec : List (List ℚ)) :
    (∀ t ∈ wavdata2bip_spec winlen step_sec win_sec spec, ∃ k : ℕ, t = (k : ℚ) * step_sec) ∧
    (wavdata2bip_spec winlen step_sec win_sec spec).Pairwise (· < ·) := by
  have h1 : (valid_candidates winlen step_sec win_sec spec).Pairwise (fun p q => p.1 < q.1) := by
    rw [valid_candidates, bip_candidates]
    exact (contiguous_regions_pairwise _).filter _
  rw [wavdata2bip_spec]
  split
  · simp
  · constructor
    · intro t ht
      simp only [List.mem_map] at ht
      obtain ⟨p, _, rfl⟩ := ht
      exact ⟨p.1, rfl⟩
    · refine List.pairwise_map.mpr ((h1.filter _).imp ?_)
      intro p q hpq
      have hc : (p.1 : ℚ) < q.1 := by exact_mod_cast hpq
      exact mul_lt_mul_of_pos_right hc hstep

/-- Claim C9: every timestamp in a BipSequence produced by the bip detector
equals its candidate's start frame index times the step duration 0.008 s
(hence is a non-negative multiple of the step), and the sequence is strictly
increasing in order of start frame index. -/
theorem wavdata2bip_timestamps (tf : List ℚ → List ℚ) (c : List ℚ) (bips : List ℚ)
    (h : wavdata2bip tf c = .ok bips) :
    (∀ t ∈ bips, ∃ k : ℕ, t = (k : ℚ) * 0.008) ∧ bips.Pairwise (· < ·) := by
  rw [wavdata2bip] at h
  cases hs : my_specgram tf c 128 32 128 with
  | error e => rw [hs] at h; simp [Except.map] at h
  | ok spec =>
    rw [hs] at h
    simp only [Except.map, Except.ok.injEq] at h
    subst h
    exact wavdata2bip_spec_mono 128 0.008 0.032 (by norm_num) spec

/-! ## Relative-energy filter keeps the maximal candidate (claim C10) -/

theorem energy_all_mod_pos {spec : List (List ℚ)}
    (hpos : ∀ fr ∈ spec, ∀ x ∈ fr, 0 ≤ x) :
    ∀ e ∈ energy_all_mod spec, 0 < e := by
  intro e he
  rw [energy_all_mod] at he
  simp only [List.mem_map] at he
  obtain ⟨fr, hfr, rfl⟩ := he
  rw [frame_energy_all_mod]
  split
  · norm_num
  · rename_i hne
    exact lt_of_le_of_ne (List.sum_nonneg (hpos fr hfr)) (Ne.symm hne)

theorem candidate_energy_pos {winlen : ℕ} {step_sec win_sec : ℚ} {spec : List (List ℚ)}
    (hpos : ∀ fr ∈ spec, ∀ x ∈ fr, 0 ≤ x) {p : ℕ × ℕ}
    (hp : p ∈ valid_candidates winlen step_sec win_sec spec) :
    0 < candidate_energy spec p := by
  have hmem : p ∈ contiguous_regions (bip_booltab winlen spec) := by
    rw [valid_candidates, bip_candidates] at hp
    exact List.mem_of_mem_filter hp
  have hb := mem_contiguous_regions hmem
  have hlen : (bip_booltab winlen spec).length = spec.length := by
    rw [bip_booltab, List.length_map]
  have hslice : 0 < (((energy_all_mod spec).drop p.1).take p.2).length := by
    rw [List.length_take, List.length_drop, energy_all_mod, List.length_map]
    omega
  have hall : ∀ x ∈ ((energy_all_mod spec).drop p.1).take p.2, 0 < x := by
    intro x hx
    exact energy_all_mod_pos hpos x (List.mem_of_mem_drop (List.mem_of_mem_take hx))
  rw [candidate_energy, listMean]
  apply div_pos
  · exact List.sum_pos _ hall (List.ne_nil_of_length_pos hslice)
  · exact_mod_cast hslice

/-- Claim C10: whenever at least one candidate run survives the duration
filter, the returned BipSequence is non-empty — in particular the surviving
candidate of maximal mean energy always passes the relative-energy filter
`meanEnergy > 0.2 * max(meanEnergy)`, because (the spectrogram magnitudes
being non-negative) every candidate has strictly positive mean energy. -/
theorem surviving_candidate_nonempty (winlen : ℕ) (spec : List (List ℚ))
    (hpos : ∀ fr ∈ spec, ∀ x ∈ fr, 0 ≤ x)
    (hv : valid_candidates winlen 0.008 0.032 spec ≠ []) :
    wavdata2bip_spec winlen 0.008 0.032 spec ≠ [] := by
  rw [wavdata2bip_spec, if_neg hv]
  set valid := valid_candidates winlen 0.008 0.032 spec with hvalid
  set mx := listMax (valid.map (candidate_energy spec)) with hmx
  have hmap : valid.map (candidate_energy spec) ≠ [] := by
    intro hcon
    exact hv (List.map_eq_nil_iff.mp hcon)
  have hmxmem : mx ∈ valid.map (candidate_energy spec) := listMax_mem hmap
  simp only [List.mem_map] at hmxmem
  obtain ⟨p0, hp0, hp0e⟩ := hmxmem
  have hmxpos : 0 < mx := by
    rw [← hp0e]
    exact candidate_energy_pos hpos hp0
  have hpass : (0.2 : ℚ) * mx < candidate_energy spec p0 := by
    rw [hp0e]
    nlinarith
  intro hcon
  rw [List.map_eq_nil_iff, List.filter_eq_nil_iff] at hcon
  exact hcon p0 hp0 (by simpa using hpass)

/-! ## Silence (claim C6) -/

theorem wavdata2bip_silent (tf : List ℚ → List ℚ) (L : ℕ) (hL : 128 ≤ L)
    (htf : (tf (List.replicate 128 0)).sum = 0) :
    wavdata2bip tf (List.replicate L 0) = .ok [] := by
  obtain ⟨spec, hok, hlen, hmem⟩ := my_specgram_ok tf (List.replicate L 0) 128 32 128
    (by norm_num) (by norm_num) (by rw [List.length_replicate]; exact hL)
  rw [wavdata2bip, hok]
  simp only [Except.map, Except.ok.injEq]
  have hframe : ∀ fr ∈ spec, fr = tf (List.replicate 128 0) := by
    intro fr hm
    obtain ⟨k, rfl, hk⟩ := hmem fr hm
    rw [List.length_replicate] at hk
    rw [preemp_replicate_zero, List.drop_replicate, List.take_replicate]
    have hmin : min 128 (L - k) = 128 := by omega
    rw [hmin]
  have hbool : ∀ b ∈ bip_booltab 128 spec, b = false := by
    intro b hb
    rw [bip_booltab] at hb
    simp only [List.mem_map] at hb
    obtain ⟨fr, hfr, rfl⟩ := hb
    rw [hframe fr hfr]
    have hzero : frame_energy_ratio 128 (tf (List.replicate 128 0)) = 0 := by
      rw [frame_energy_ratio, if_pos htf]
      exact zero_div _
    rw [hzero]
    norm_num
  have hvalid : valid_candidates 128 0.008 0.032 spec = [] := by
    rw [valid_candidates, bip_candidates, contiguous_regions_all_false hbool]
    rfl
  rw [wavdata2bip_spec]
  simp [hvalid]

/-- Claim C6: for an all-zero channel long enough to frame at least one
analysis window, the bip detector returns an empty BipSequence (no error is
raised), and the pattern classifier applied to that empty result returns
false. -/
theorem silent_channel (tf : List ℚ → List ℚ) (L : ℕ) (hL : 128 ≤ L)
    (htf : (tf (List.replicate 128 0)).sum = 0) :
    wavdata2bip tf (List.replicate L 0) = .ok [] ∧
      is_bip_pattern [] ((L : ℚ) / 4000) = false := by
  refine ⟨wavdata2bip_silent tf L hL htf, ?_⟩
  rw [is_bip_pattern]
  simp

theorem silent_channel_witness :
    (128 ≤ 200 ∧ ((fun _ => ([] : List ℚ)) (List.replicate 128 (0 : ℚ))).sum = 0) ∧
      wavdata2bip (fun _ => ([] : List ℚ)) (List.replicate 200 0) = .ok [] ∧
        is_bip_pattern [] ((200 : ℚ) / 4000) = false :=
  ⟨⟨by norm_num, rfl⟩, silent_channel (fun _ => ([] : List ℚ)) 200 (by norm_num) rfl⟩

theorem wavdata2bip_timestamps_witness :
    (wavdata2bip (fun _ => ([] : List ℚ)) (List.replicate 128 0) = .ok []) ∧
      List.Pairwise (· < ·) ([] : List ℚ) := by
  have h := wavdata2bip_silent (fun _ => ([] : List ℚ)) 128 (by norm_num) rfl
  exact ⟨h, (wavdata2bip_timestamps (fun _ => ([] : List ℚ)) (List.replicate 128 0) [] h).2⟩

theorem surviving_candidate_nonempty_witness :
    valid_candidates 4 0.008 0.032 (List.replicate 8 [(1 : ℚ)]) ≠ [] ∧
      wavdata2bip_spec 4 0.008 0.032 (List.replicate 8 [(1 : ℚ)]) ≠ [] := by
  have hratio : frame_energy_ratio 4 [(1 : ℚ)] = 1 := by
    rw [frame_energy_ratio, frame_energy_all_mod]
    norm_num [frame_energy_1000, energy_idx, int_trunc, List.getD_cons_zero,
      List.getD_cons_succ, List.sum_cons, List.sum_nil, Int.toNat_ofNat,
      List.getElem?_cons_succ, List.getElem?_cons_zero, List.getElem?_nil,
      show Int.toNat 0 = 0 from rfl, show Int.toNat 1 = 1 from rfl,
      show Int.toNat 2 = 2 from rfl]
  have hbool : bip_booltab 4 (List.replicate 8 [(1 : ℚ)]) = List.replicate 8 true := by
    rw [bip_booltab, List.map_replicate]
    congr 1
    rw [hratio]
    norm_num
  have hcr : contiguous_regions (List.replicate 8 true) = [(0, 8)] := by decide
  have hvalid : valid_candidates 4 0.008 0.032 (List.replicate 8 [(1 : ℚ)]) = [(0, 8)] := by
    rw [valid_candidates, bip_candidates, hbool, hcr]
    norm_num [List.filter_cons, duration_valid, dur_sec]
  have hv : valid_candidates 4 0.008 0.032 (List.replicate 8 [(1 : ℚ)]) ≠ [] := by
    rw [hvalid]
    simp
  refine ⟨hv, surviving_candidate_nonempty 4 _ ?_ hv⟩
  intro fr hfr x hx
  rw [List.eq_of_mem_replicate hfr, List.mem_singleton] at hx
  subst hx
  norm_num

/-! ## Pattern classifier (claim C1) -/

theorem roundHalfEven_eq_round {q : ℚ} (h : Int.fract q ≠ 1 / 2) :
    roundHalfEven q = round q := by
  have hf0 : 0 ≤ Int.fract q := Int.fract_nonneg q
  have hf1 : Int.fract q < 1 := Int.fract_lt_one q
  have hsplit : ((⌊q⌋ : ℚ) + Int.fract q) = q := Int.floor_add_fract q
  rw [roundHalfEven, round_eq]
  by_cases hlt : Int.fract q < 1 / 2
  · rw [if_pos hlt]
    conv_rhs => rw [← hsplit]
    have hzero : ⌊Int.fract q + 1 / 2⌋ = 0 :=
      Int.floor_eq_zero_iff.mpr ⟨by linarith, by linarith⟩
    rw [add_assoc, Int.floor_int_add, hzero, add_zero]
  · rw [if_neg hlt]
    have hgt : 1 / 2 < Int.fract q := lt_of_le_of_ne (le_of_not_lt hlt) (Ne.symm h)
    rw [if_pos hgt]
    conv_rhs => rw [← hsplit]
    have hone : ⌊Int.fract q + 1 / 2⌋ = 1 := by
      rw [Int.floor_eq_iff]
      constructor
      · push_cast
        linarith
      · push_cast
        linarith
    rw [add_assoc, Int.floor_int_add, hone]

theorem fract_ne_half_of_multiple {t : ℚ} (k : ℤ) (h : t = (k : ℚ) * (8 / 1000)) :
    Int.fract t ≠ 1 / 2 := by
  intro hc
  have h2 : t - (⌊t⌋ : ℚ) = 1 / 2 := hc
  set c : ℤ := ⌊t⌋ with hcdef
  rw [h] at h2
  have h4 : (2 * k : ℤ) = 250 * c + 125 := by
    have h3 : (2 * k : ℚ) = 250 * (c : ℚ) + 125 := by
      field_simp at h2
      linarith
    exact_mod_cast h3
  omega

theorem zip_round_eq : ∀ (l : List ℚ) (x : ℚ),
    (∀ t ∈ x :: l, ∃ k : ℤ, t = (k : ℚ) * (8 / 1000)) →
    List.zipWith (fun a b => roundHalfEven (a - b)) l (x :: l) =
      List.zipWith (fun a b => round (a - b)) l (x :: l)
  | [], _, _ => rfl
  | y :: l', x, h => by
    obtain ⟨kx, hkx⟩ := h x (by simp)
    obtain ⟨ky, hky⟩ := h y (by simp)
    have hd : y - x = ((ky - kx : ℤ) : ℚ) * (8 / 1000) := by
      rw [hkx, hky]
      push_cast
      ring
    rw [List.zipWith_cons_cons, List.zipWith_cons_cons,
        roundHalfEven_eq_round (fract_ne_half_of_multiple _ hd),
        zip_round_eq l' y (fun t ht => h t (List.mem_cons_of_mem _ ht))]

theorem count_partition_add (dbip : List ℤ) :
    (dbip.filter (fun d => decide (d = 1))).length
      + (dbip.filter (fun d => decide (d = 10))).length
      + (dbip.filter (fun d => decide (d = 17))).length
      + (dbip.filter (fun d => decide (¬(d = 1 ∨ d = 10 ∨ d = 17)))).length
      = dbip.length := by
  induction dbip with
  | nil => rfl
  | cons a t ih =>
    rw [List.filter_cons, List.filter_cons, List.filter_cons, List.filter_cons,
        List.length_cons]
    by_cases h1 : a = 1
    · rw [if_pos (show decide (a = 1) = true by simp [h1]),
          if_neg (show ¬decide (a = 10) = true by simp [h1]),
          if_neg (show ¬decide (a = 17) = true by simp [h1]),
          if_neg (show ¬decide (¬(a = 1 ∨ a = 10 ∨ a = 17)) = true by simp [h1]),
          List.length_cons]
      omega
    · by_cases h10 : a = 10
      · rw [if_neg (show ¬decide (a = 1) = true by simp [h10]),
            if_pos (show decide (a = 10) = true by simp [h10]),
            if_neg (show ¬decide (a = 17) = true by simp [h10]),
            if_neg (show ¬decide (¬(a = 1 ∨ a = 10 ∨ a = 17)) = true by simp [h10]),
            List.length_cons]
        omega
      · by_cases h17 : a = 17
        · rw [if_neg (show ¬decide (a = 1) = true by simp [h17]),
              if_neg (show ¬decide (a = 10) = true by simp [h17]),
              if_pos (show decide (a = 17) = true by simp [h17]),
              if_neg (show ¬decide (¬(a = 1 ∨ a = 10 ∨ a = 17)) = true by simp [h17]),
              List.length_cons]
          omega
        · rw [if_neg (show ¬decide (a = 1) = true by simp [h1]),
              if_neg (show ¬decide (a = 10) = true by simp [h10]),
              if_neg (show ¬decide (a = 17) = true by simp [h17]),
              if_pos (show decide (¬(a = 1 ∨ a = 10 ∨ a = 17)) = true by
                simp [h1, h10, h17]),
              List.length_cons]
          omega

/-- Claim C1: for every non-empty bip list whose timestamps are integer
multiples of the 0.008 s step duration and every duration `dur`,
`is_bip_pattern` returns true exactly when the spec's rule holds: with the
consecutive differences rounded to the nearest integer second, counts
`nb1`/`nb10`/`nb17` of differences equal to 1/10/17 and `nbOther` of all
others, and `estBips = dur/60*8`: `(nb1+nb10+nb17) > 4*nbOther` and the
number of differences lies within `[0.3*estBips, 1.5*estBips]` (inclusive)
for `dur < 60`, or within `(0.8*estBips, 1.2*estBips)` (strict) otherwise. -/
theorem is_bip_pattern_iff_spec (bl : List ℚ) (dur : ℚ) (hne : bl ≠ [])
    (hml : ∀ t ∈ bl, ∃ k : ℤ, t = (k : ℚ) * (8 / 1000)) :
    is_bip_pattern bl dur = true ↔ isBipPatternSpec bl dur := by
  cases bl with
  | nil => exact absurd rfl hne
  | cons x l =>
    have hzip := zip_round_eq l x hml
    simp only [is_bip_pattern, isBipPatternSpec, List.length_cons, List.tail_cons,
      Nat.add_one_ne_zero, if_false]
    simp only [hzip]
    set dbip := List.zipWith (fun a b => round (a - b)) l (x :: l) with hdbip
    have hpart : dbip.length - (dbip.filter (fun d => decide (d = 1))).length
        - (dbip.filter (fun d => decide (d = 10))).length
        - (dbip.filter (fun d => decide (d = 17))).length
        = (dbip.filter (fun d => decide (¬(d = 1 ∨ d = 10 ∨ d = 17)))).length := by
      have := count_partition_add dbip
      omega
    simp only [hpart]
    by_cases hdur : dur < 60
    · rw [if_pos hdur, if_pos hdur]
      simp only [Bool.and_eq_true, decide_eq_true_eq, ge_iff_le]
      constructor
      · rintro ⟨⟨h1, h2⟩, h3⟩
        exact ⟨h1, by linarith, by linarith⟩
      · rintro ⟨h1, h2, h3⟩
        exact ⟨⟨h1, by linarith⟩, by linarith⟩
    · rw [if_neg hdur, if_neg hdur]
      simp only [Bool.and_eq_true, decide_eq_true_eq, gt_iff_lt]
      constructor
      · rintro ⟨⟨h1, h2⟩, h3⟩
        exact ⟨h1, by linarith, by linarith⟩
      · rintro ⟨h1, h2, h3⟩
        exact ⟨⟨h1, by linarith⟩, by linarith⟩

theorem is_bip_pattern_iff_spec_witness :
    ([(0 : ℚ), 10] ≠ ([] : List ℚ)) ∧
      (is_bip_pattern [(0 : ℚ), 10] 30 = true ↔ isBipPatternSpec [(0 : ℚ), 10] 30) := by
  refine ⟨by simp, is_bip_pattern_iff_spec [(0 : ℚ), 10] 30 (by simp) ?_⟩
  intro t ht
  rcases List.mem_cons.mp ht with rfl | ht
  · exact ⟨0, by norm_num⟩
  · rw [List.mem_singleton] at ht
    subst ht
    exact ⟨1250, by norm_num⟩

/-! ## ChannelSelector (claim C2) -/

theorem wavdata2bip_isOk (tf : List ℚ → List ℚ) (c : List ℚ) (hc : 128 ≤ c.length) :
    ∃ b, wavdata2bip tf c = .ok b := by
  obtain ⟨spec, hok, _, _⟩ := my_specgram_ok tf c 128 32 128 (by norm_num) (by norm_num) hc
  exact ⟨_, by rw [wavdata2bip, hok]; rfl⟩

theorem clockChannelsAux_eq (tf : List ℚ → List ℚ) (dur : ℚ) :
    ∀ (chans : List (List ℚ)) (i : ℕ), (∀ c ∈ chans, 128 ≤ c.length) →
      clockChannelsAux tf dur i chans =
        .ok (((List.range chans.length).filter
          (fun k => channelMatches tf dur (chans.getD k []))).map (fun k => i + k))
  | [], i, _ => by simp [clockChannelsAux]
  | c :: rest, i, h => by
    obtain ⟨b, hb⟩ := wavdata2bip_isOk tf c (h c (by simp))
    have hrec := clockChannelsAux_eq tf dur rest (i + 1)
      (fun c' hc' => h c' (List.mem_cons_of_mem _ hc'))
    have hmatch : channelMatches tf dur c = is_bip_pattern b dur := by
      rw [channelMatches, hb]
    simp only [clockChannelsAux, hb, hrec, List.length_cons]
    rw [List.range_succ_eq_map, List.filter_cons, List.filter_map]
    have hcomp : ((fun k => channelMatches tf dur ((c :: rest).getD k [])) ∘ (· + 1)) =
        (fun k => channelMatches tf dur (rest.getD k [])) := by
      funext k
      simp [List.getD_cons_succ]
    rw [hcomp]
    by_cases hm : is_bip_pattern b dur
    · rw [if_pos (show channelMatches tf dur ((c :: rest).getD 0 []) = true by
        simp [List.getD_cons_zero, hmatch, hm])]
      rw [if_pos hm]
      simp only [List.map_cons, List.map_map, Except.ok.injEq, Nat.add_zero]
      congr 1
      apply List.map_congr_left
      intro k _
      simp only [Function.comp_apply, Nat.succ_eq_add_one]
      omega
    · rw [if_neg (show ¬channelMatches tf dur ((c :: rest).getD 0 []) = true by
        simp [List.getD_cons_zero, hmatch, hm])]
      rw [if_neg hm]
      simp only [List.map_map, Except.ok.injEq]
      apply List.map_congr_left
      intro k _
      simp only [Function.comp_apply, Nat.succ_eq_add_one]
      omega

/-- Claim C2: the channel selector classifies each channel independently in
0-based index order (collected in `clockMatchedChannels`) and reduces the
verdicts to `-1` (no clock) when no channel matches, the channel index when
exactly one matches, and `-2` (ambiguous) when more than one matches. -/
theorem speaking_clock_detection_verdict (tf : List ℚ → List ℚ) (chans : List (List ℚ))
    (h : ∀ c ∈ chans, 128 ≤ c.length) :
    (clockMatchedChannels tf chans = [] →
        speaking_clock_detection tf chans = .ok (-1)) ∧
    ((clockMatchedChannels tf chans).length = 1 →
        speaking_clock_detection tf chans = .ok ((clockMatchedChannels tf chans).headI : ℤ)) ∧
    (2 ≤ (clockMatchedChannels tf chans).length →
        speaking_clock_detection tf chans = .ok (-2)) := by
  have hzero : ((List.range chans.length).filter
      (fun k => channelMatches tf ((chans.headI.length : ℚ) / 4000) (chans.getD k []))).map
        (fun k => 0 + k) = clockMatchedChannels tf chans := by
    rw [clockMatchedChannels]
    have : (fun k : ℕ => 0 + k) = fun k : ℕ => k := by
      funext k
      omega
    rw [this, List.map_id']
  rw [speaking_clock_detection, clockChannelsAux_eq tf _ chans 0 h, hzero]
  refine ⟨?_, ?_, ?_⟩
  · intro hm
    rw [hm]
    rfl
  · intro hm
    dsimp only
    rw [if_neg (show ¬((clockMatchedChannels tf chans).length = 0) by omega), if_pos hm]
  · intro hm
    dsimp only
    rw [if_neg (show ¬((clockMatchedChannels tf chans).length = 0) by omega),
        if_neg (show ¬((clockMatchedChannels tf chans).length = 1) by omega)]

theorem speaking_clock_detection_verdict_witness :
    clockMatchedChannels (fun _ => ([] : List ℚ)) [List.replicate 128 (0 : ℚ)] = [] ∧
      speaking_clock_detection (fun _ => ([] : List ℚ)) [List.replicate 128 (0 : ℚ)] =
        .ok (-1) := by
  have hws := wavdata2bip_silent (fun _ => ([] : List ℚ)) 128 (by norm_num) rfl
  have hmatch : channelMatches (fun _ => ([] : List ℚ))
      ((128 : ℚ) / 4000) (List.replicate 128 (0 : ℚ)) = false := by
    simp only [channelMatches, hws]
    simp [is_bip_pattern]
  have hempty : clockMatchedChannels (fun _ => ([] : List ℚ)) [List.replicate 128 (0 : ℚ)] =
      [] := by
    rw [clockMatchedChannels]
    rw [show List.range [List.replicate 128 (0 : ℚ)].length = [0] from rfl]
    rw [List.filter_cons, List.filter_nil]
    rw [show ([List.replicate 128 (0 : ℚ)].headI).length = 128 from by
      rw [show [List.replicate 128 (0 : ℚ)].headI = List.replicate 128 (0 : ℚ) from rfl,
          List.length_replicate]]
    rw [show ([List.replicate 128 (0 : ℚ)].getD 0 []) = List.replicate 128 (0 : ℚ) from rfl]
    rw [show ((128 : ℕ) : ℚ) = (128 : ℚ) from by norm_num]
    rw [hmatch]
    simp
  refine ⟨hempty, ?_⟩
  exact (speaking_clock_detection_verdict (fun _ => ([] : List ℚ))
    [List.replicate 128 (0 : ℚ)] (by intro c hc; rw [List.mem_singleton] at hc; subst hc; simp)).1
    hempty

/-! ## PhaseInversionDetector (claim C5) -/

theorem zipWith_mul_neg (c : List ℚ) :
    (List.zipWith (· * ·) c (c.map (fun x => -x))).sum = -((c.map (fun x => x * x)).sum) := by
  induction c with
  | nil => simp
  | cons a t ih =>
    simp only [List.map_cons, List.zipWith_cons_cons, List.sum_cons, ih]
    ring

theorem zipWith_mul_self (c : List ℚ) :
    List.zipWith (· * ·) c c = c.map (fun x => x * x) := by
  induction c with
  | nil => rfl
  | cons a t ih => simp [ih]

theorem sum_sq_pos : ∀ {c : List ℚ}, (∃ x ∈ c, x ≠ 0) → 0 < (c.map (fun x => x * x)).sum
  | [], h => by simp at h
  | a :: t, h => by
    have hnn : 0 ≤ (t.map (fun x => x * x)).sum :=
      List.sum_nonneg (by
        intro y hy
        simp only [List.mem_map] at hy
        obtain ⟨z, _, rfl⟩ := hy
        exact mul_self_nonneg z)
    rw [List.map_cons, List.sum_cons]
    rcases h with ⟨x, hx, hxne⟩
    rcases List.mem_cons.mp hx with rfl | hmem
    · have hsq : 0 < x * x := mul_self_pos.mpr hxne
      linarith
    · have hp := sum_sq_pos ⟨x, hmem, hxne⟩
      have hsq : 0 ≤ a * a := mul_self_nonneg a
      linarith

/-- Claim C5 counterexample: in the all-zero stereo clip the second channel
is the exact negation of the first, yet `phase_inversion_detection` returns
`0` (Normal) rather than `1` (Inverted), because the correlation is `0`,
not negative. -/
theorem phase_inversion_zero_negation_counterexample :
    ([(0 : ℚ)] = ([(0 : ℚ)]).map (fun x => -x)) ∧
      phase_inversion_detection [[(0 : ℚ)], [(0 : ℚ)]] = 0 ∧
      (0 : ℤ) ≠ 1 := by
  refine ⟨by norm_num, ?_, by norm_num⟩
  rw [phase_inversion_detection]
  norm_num [List.getD_cons_zero, List.getD_cons_succ, List.zipWith_cons_cons]

/-- Claim C5 (amended): the phase-inversion detector returns Normal (0) for a
mono clip; Unsupported (-1) for more than two channels; for exactly two
channels it returns Inverted (1) precisely when the correlation
`Σ channel0[i] * channel1[i]` is negative, else Normal (0); in particular two
channels that are exact negations of each other *with at least one nonzero
sample* yield Inverted, and identical channels yield Normal. -/
theorem phase_inversion_cases (c c0 c1 : List ℚ) (chans : List (List ℚ))
    (hmany : 2 < chans.length) (hnz : ∃ x ∈ c, x ≠ 0) :
    phase_inversion_detection [c] = 0 ∧
    phase_inversion_detection chans = -1 ∧
    (phase_inversion_detection [c0, c1] =
      if (List.zipWith (· * ·) c0 c1).sum < 0 then 1 else 0) ∧
    phase_inversion_detection [c, c.map (fun x => -x)] = 1 ∧
    phase_inversion_detection [c, c] = 0 := by
  refine ⟨?_, ?_, ?_, ?_, ?_⟩
  · rw [phase_inversion_detection]
    simp
  · rw [phase_inversion_detection]
    rw [if_neg (by omega), if_pos hmany]
  · rw [phase_inversion_detection]
    simp [List.getD_cons_zero, List.getD_cons_succ]
  · rw [phase_inversion_detection]
    rw [if_neg (by simp), if_neg (by simp)]
    rw [show ([c, c.map (fun x => -x)].getD 0 []) = c from rfl,
        show ([c, c.map (fun x => -x)].getD 1 []) = c.map (fun x => -x) from rfl]
    rw [if_pos]
    rw [zipWith_mul_neg]
    have := sum_sq_pos hnz
    linarith
  · rw [phase_inversion_detection]
    rw [if_neg (by simp), if_neg (by simp)]
    rw [show ([c, c].getD 0 []) = c from rfl, show ([c, c].getD 1 []) = c from rfl]
    rw [zipWith_mul_self]
    rw [if_neg]
    have hnn : 0 ≤ (c.map (fun x => x * x)).sum :=
      List.sum_nonneg (by
        intro y hy
        simp only [List.mem_map] at hy
        obtain ⟨z, _, rfl⟩ := hy
        exact mul_self_nonneg z)
    linarith

theorem phase_inversion_cases_witness :
    phase_inversion_detection [[(1 : ℚ)]] = 0 ∧
    phase_inversion_detection [([] : List ℚ), [], []] = -1 ∧
    (phase_inversion_detection [[(1 : ℚ)], [(2 : ℚ)]] =
      if (List.zipWith (· * ·) [(1 : ℚ)] [(2 : ℚ)]).sum < 0 then 1 else 0) ∧
    phase_inversion_detection [[(1 : ℚ)], ([(1 : ℚ)]).map (fun x => -x)] = 1 ∧
    phase_inversion_detection [[(1 : ℚ)], [(1 : ℚ)]] = 0 :=
  phase_inversion_cases [(1 : ℚ)] [(1 : ℚ)] [(2 : ℚ)] [[], [], []]
    (by norm_num) ⟨1, by norm_num, by norm_num⟩
